import Mathlib

/-!
Verification of the canoa terminal dashboard (Rust) against its
natural-language specification.  The definitions below are shallow
embeddings of functions from src/tui.rs and src/app.rs; Rust machine
integers (usize, u32) are modelled as Nat, with two's-complement
wraparound made explicit wherever release-mode Rust would wrap.
Assertions and panicking indexing are modelled by Option-valued
functions returning none on the panicking path.
-/

namespace Canoa

/-! ## Hardwrapping text (src/tui.rs, HardwrappingText::next) -/

/-- Index of the first newline in the backing text, mirroring
`self.text.iter().position(|c| c == &'\n')`. -/
def newlinePos : List Char → Option Nat
  | [] => none
  | c :: rest => if c = '\n' then some 0 else (newlinePos rest).map (· + 1)

/-- One call of `HardwrappingText::next` on backing text `text` with wrap
width `width`: returns the emitted line, whether a newline was consumed
(`strip_newline`), and the remaining text; `none` when no characters
remain. -/
def hardwrapNext (text : List Char) (width : Nat) :
    Option (List Char × Bool × List Char) :=
  if text.isEmpty then none
  else
    let lineEnd := match newlinePos text with
      | some p => p
      | none => text.length
    let foundNewline := (newlinePos text).isSome
    let stripNewline := foundNewline && decide (lineEnd ≤ width)
    let hardwrappedLineEnd := min width lineEnd
    some (text.take hardwrappedLineEnd, stripNewline,
      text.drop (hardwrappedLineEnd + (if stripNewline then 1 else 0)))

/-- Iterating the hardwrap producer at most `fuel` times (the Rust iterator
is lazy, so a bounded number of `next` calls is the faithful model of any
finite consumption of it).  Returns the emitted (line, newline-consumed)
pairs in order, together with the remaining text. -/
def hardwrapRun (width : Nat) : Nat → List Char → List (List Char × Bool) × List Char
  | 0, text => ([], text)
  | fuel + 1, text =>
    match hardwrapNext text width with
    | none => ([], text)
    | some (line, brk, rest) =>
      let p := hardwrapRun width fuel rest
      ((line, brk) :: p.1, p.2)

/-- Joining emitted lines back together, re-inserting a newline exactly at
the positions where the producer consumed one. -/
def joinHardwrapped : List (List Char × Bool) → List Char
  | [] => []
  | (line, brk) :: rest => line ++ (if brk then ['\n'] else []) ++ joinHardwrapped rest

theorem newlinePos_spec (text : List Char) (p : Nat) (h : newlinePos text = some p) :
    p < text.length ∧ text.drop p = '\n' :: text.drop (p + 1) := by
  induction text generalizing p with
  | nil => simp [newlinePos] at h
  | cons c rest ih =>
    by_cases hc : c = '\n'
    · subst hc
      rw [newlinePos, if_pos rfl] at h
      obtain rfl : (0 : Nat) = p := by simpa using h
      simp
    · rw [newlinePos, if_neg hc] at h
      simp only [Option.map_eq_some'] at h
      obtain ⟨q, hq, rfl⟩ := h
      obtain ⟨h1, h2⟩ := ih q hq
      refine ⟨by simpa using Nat.succ_lt_succ h1, ?_⟩
      simpa using h2

theorem hardwrapNext_eq_none_iff (text : List Char) (width : Nat) :
    hardwrapNext text width = none ↔ text = [] := by
  cases text <;> simp [hardwrapNext]

theorem hardwrapNext_no_newline (text : List Char) (width : Nat)
    (hne : text ≠ []) (hnp : newlinePos text = none) :
    hardwrapNext text width =
      some (text.take (min width text.length), false,
        text.drop (min width text.length)) := by
  rw [hardwrapNext, if_neg (by simpa using hne)]
  simp [hnp]

theorem hardwrapNext_newline_le (text : List Char) (width p : Nat)
    (hne : text ≠ []) (hnp : newlinePos text = some p) (hpw : p ≤ width) :
    hardwrapNext text width = some (text.take p, true, text.drop (p + 1)) := by
  rw [hardwrapNext, if_neg (by simpa using hne)]
  simp [hnp, hpw, min_eq_right hpw]

theorem hardwrapNext_newline_gt (text : List Char) (width p : Nat)
    (hne : text ≠ []) (hnp : newlinePos text = some p) (hpw : ¬ p ≤ width) :
    hardwrapNext text width = some (text.take width, false, text.drop width) := by
  rw [hardwrapNext, if_neg (by simpa using hne)]
  simp [hnp, hpw, min_eq_left (by omega : width ≤ p)]

/-- Everything one needs about a successful `next` call: the emitted line
followed by the consumed break (if any) followed by the remainder is the
original text; the line respects the width; and for positive width the
remainder is strictly shorter. -/
theorem hardwrapNext_decompose (text : List Char) (width : Nat)
    (line : List Char) (brk : Bool) (rest : List Char)
    (h : hardwrapNext text width = some (line, brk, rest)) :
    line ++ (if brk then ['\n'] else []) ++ rest = text ∧
    line.length ≤ width ∧
    (1 ≤ width → rest.length < text.length) := by
  have hne : text ≠ [] := by
    intro hnil
    rw [hnil] at h
    simp [hardwrapNext] at h
  have hlen : 1 ≤ text.length := by
    cases text
    · exact absurd rfl hne
    · simp
  rcases hnp : newlinePos text with _ | p
  · -- no newline in the text: nothing is stripped
    rw [hardwrapNext_no_newline text width hne hnp] at h
    obtain ⟨rfl, rfl, rfl⟩ := by
      simpa only [Option.some.injEq, Prod.mk.injEq] using h.symm
    refine ⟨by simp [List.take_append_drop], by simp, fun hw => ?_⟩
    have hmin : 1 ≤ min width text.length := le_min hw hlen
    simp only [List.length_drop]
    omega
  · -- first newline at position p
    obtain ⟨hplt, hdropp⟩ := newlinePos_spec text p hnp
    by_cases hpw : p ≤ width
    · -- the break is at or before the width boundary: it is consumed
      rw [hardwrapNext_newline_le text width p hne hnp hpw] at h
      obtain ⟨rfl, rfl, rfl⟩ := by
        simpa only [Option.some.injEq, Prod.mk.injEq] using h.symm
      refine ⟨?_, by simp [min_le_left]; omega,
        fun _ => by simp only [List.length_drop]; omega⟩
      simp only [if_pos rfl]
      calc text.take p ++ ['\n'] ++ text.drop (p + 1)
          = text.take p ++ ('\n' :: text.drop (p + 1)) := by simp
        _ = text.take p ++ text.drop p := by rw [hdropp]
        _ = text := List.take_append_drop p text
    · -- the break lies beyond the width boundary: emit `width` characters
      rw [hardwrapNext_newline_gt text width p hne hnp hpw] at h
      obtain ⟨rfl, rfl, rfl⟩ := by
        simpa only [Option.some.injEq, Prod.mk.injEq] using h.symm
      refine ⟨by simp [List.take_append_drop], by simp, fun hw => ?_⟩
      simp only [List.length_drop]
      omega

/-- Rejoining everything emitted so far and appending the unconsumed
remainder always reconstructs the original text, for every width and fuel. -/
theorem hardwrapRun_join (width fuel : Nat) (text : List Char) :
    joinHardwrapped (hardwrapRun width fuel text).1 ++ (hardwrapRun width fuel text).2
      = text := by
  induction fuel generalizing text with
  | zero => simp [hardwrapRun, joinHardwrapped]
  | succ n ih =>
    rw [hardwrapRun]
    rcases hs : hardwrapNext text width with _ | ⟨line, brk, rest⟩
    · simp [joinHardwrapped]
    · obtain ⟨hdec, -, -⟩ := hardwrapNext_decompose text width line brk rest hs
      simp only [joinHardwrapped]
      calc (line ++ (if brk then ['\n'] else []) ++
              joinHardwrapped (hardwrapRun width n rest).1) ++
              (hardwrapRun width n rest).2
          = line ++ (if brk then ['\n'] else []) ++
              (joinHardwrapped (hardwrapRun width n rest).1 ++
                (hardwrapRun width n rest).2) := by
            simp [List.append_assoc]
        _ = line ++ (if brk then ['\n'] else []) ++ rest := by rw [ih rest]
        _ = text := hdec

/-- For positive width, `text.length` calls exhaust the producer. -/
theorem hardwrapRun_remainder_nil (width : Nat) (hw : 1 ≤ width) :
    ∀ (fuel : Nat) (text : List Char), text.length ≤ fuel →
      (hardwrapRun width fuel text).2 = [] := by
  intro fuel
  induction fuel with
  | zero =>
    intro text ht
    have : text = [] := by
      cases text
      · rfl
      · simp at ht
    simp [hardwrapRun, this]
  | succ n ih =>
    intro text ht
    rw [hardwrapRun]
    rcases hs : hardwrapNext text width with _ | ⟨line, brk, rest⟩
    · simpa using (hardwrapNext_eq_none_iff text width).mp hs
    · obtain ⟨-, -, hprog⟩ := hardwrapNext_decompose text width line brk rest hs
      exact ih rest (by have := hprog hw; omega)

/-- Every emitted line has length at most the wrap width. -/
theorem hardwrapRun_line_length (width fuel : Nat) (text : List Char) :
    ∀ p ∈ (hardwrapRun width fuel text).1, p.1.length ≤ width := by
  induction fuel generalizing text with
  | zero => simp [hardwrapRun]
  | succ n ih =>
    rw [hardwrapRun]
    rcases hs : hardwrapNext text width with _ | ⟨line, brk, rest⟩
    · simp
    · obtain ⟨-, hlen, -⟩ := hardwrapNext_decompose text width line brk rest hs
      intro p hp
      simp only [List.mem_cons] at hp
      rcases hp with rfl | hp
      · exact hlen
      · exact ih rest p hp

/-- The producer emits at most `fuel` lines in `fuel` calls. -/
theorem hardwrapRun_count_le (width fuel : Nat) (text : List Char) :
    (hardwrapRun width fuel text).1.length ≤ fuel := by
  induction fuel generalizing text with
  | zero => simp [hardwrapRun]
  | succ n ih =>
    rw [hardwrapRun]
    rcases hs : hardwrapNext text width with _ | ⟨line, brk, rest⟩
    · simp
    · simpa using Nat.succ_le_succ (ih rest)

/-- At width 0 on the text "a", one `next` call emits an empty line,
consumes nothing, and leaves the state unchanged. -/
theorem hardwrapNext_a_width0 : hardwrapNext ['a'] 0 = some ([], false, ['a']) := by
  decide

theorem hardwrapRun_a_width0 (n : Nat) :
    hardwrapRun 0 n ['a'] = (List.replicate n ([], false), ['a']) := by
  induction n with
  | zero => simp [hardwrapRun]
  | succ k ih =>
    rw [hardwrapRun, hardwrapNext_a_width0]
    simp [ih, List.replicate_succ]

theorem joinHardwrapped_replicate_empty (n : Nat) :
    joinHardwrapped (List.replicate n (([] : List Char), false)) = [] := by
  induction n with
  | zero => simp [joinHardwrapped]
  | succ k ih => simpa [List.replicate_succ, joinHardwrapped] using ih

/-- C2 (corrected).  For every text and every width, each emitted line has
length at most the width; and for every width ≥ 1 the producer exhausts the
text within `text.length` calls, after which re-joining the emitted lines in
order, re-inserting a newline exactly where the producer consumed one,
reproduces the original text exactly.  (The width ≥ 1 restriction is forced:
at width 0 the rejoin property fails, see the counterexample.) -/
theorem hardwrap_length_and_rejoin (text : List Char) (width : Nat) :
    (∀ p ∈ (hardwrapRun width text.length text).1, p.1.length ≤ width) ∧
    (1 ≤ width →
      joinHardwrapped (hardwrapRun width text.length text).1 = text) := by
  refine ⟨hardwrapRun_line_length width text.length text, fun hw => ?_⟩
  have h1 := hardwrapRun_join width text.length text
  rw [hardwrapRun_remainder_nil width hw text.length text le_rfl] at h1
  simpa using h1

/-- Witness for C2 at the text "ab\ncd" and width 3. -/
theorem hardwrap_length_and_rejoin_witness :
    joinHardwrapped
        (hardwrapRun 3 (['a', 'b', '\n', 'c', 'd'] : List Char).length
          ['a', 'b', '\n', 'c', 'd']).1
      = ['a', 'b', '\n', 'c', 'd'] :=
  (hardwrap_length_and_rejoin ['a', 'b', '\n', 'c', 'd'] 3).2 (by decide)

/-- C2 counterexample.  At wrap width 0 on the text "a" every call emits an
empty line and consumes no break, so the rejoin of everything emitted is
empty after any number of iterator steps — it never reproduces the text. -/
theorem hardwrap_rejoin_width0_cex :
    (∀ n, joinHardwrapped (hardwrapRun 0 n ['a']).1 = []) ∧
    (['a'] : List Char) ≠ [] := by
  constructor
  · intro n
    rw [hardwrapRun_a_width0]
    exact joinHardwrapped_replicate_empty n
  · simp

/-- C9 (corrected).  For every width ≥ 1 the hardwrap producer yields a
finite sequence: after at most `text.length` calls no characters remain; and
for every width it terminates exactly when no characters remain (`next`
returns nothing iff the backing text is empty).  (The width ≥ 1 restriction
is forced: at width 0 the producer loops forever on a non-break character,
see the counterexample.) -/
theorem hardwrap_finite (text : List Char) (width : Nat) (hw : 1 ≤ width) :
    (hardwrapRun width text.length text).2 = [] ∧
    (∀ t : List Char, hardwrapNext t width = none ↔ t = []) :=
  ⟨hardwrapRun_remainder_nil width hw text.length text le_rfl,
    fun t => hardwrapNext_eq_none_iff t width⟩

/-- Witness for C9 at the text "x\n" and width 1. -/
theorem hardwrap_finite_witness :
    (hardwrapRun 1 (['x', '\n'] : List Char).length ['x', '\n']).2 = [] :=
  (hardwrap_finite ['x', '\n'] 1 (by decide)).1

/-- C9 counterexample.  At width 0 on the text "a" the producer's state is a
fixed point of `next`: after any number of calls the character 'a' still
remains and `next` still returns another (empty) line, so the sequence of
emitted lines is not finite. -/
theorem hardwrap_nonterminating_cex :
    (∀ n, (hardwrapRun 0 n ['a']).2 = ['a']) ∧ hardwrapNext ['a'] 0 ≠ none := by
  refine ⟨fun n => by rw [hardwrapRun_a_width0], ?_⟩
  rw [hardwrapNext_a_width0]
  simp

/-! ## Rendering regions (src/tui.rs, RenderingRegion) -/

inductive Color
  | Black
  | Cyan
  | Default
  | Green
  deriving DecidableEq

structure Vector2 where
  x : Nat
  y : Nat
  deriving DecidableEq

structure Size where
  width : Nat
  height : Nat
  deriving DecidableEq

structure RenderingRegion where
  title : Option String
  position : Vector2
  size : Size
  border_color : Color
  deriving DecidableEq

/-- Mirror of `RenderingRegion::new`: the border colour starts as the
default colour (the field is not optional — there is no borderless state). -/
def RenderingRegion.new (title : Option String) (position : Vector2)
    (size : Size) : RenderingRegion :=
  { title := title, position := position, size := size,
    border_color := Color.Default }

/-- Mirror of `RenderingRegion::inner_size`: subtracts the border frame
from both axes unconditionally. -/
def RenderingRegion.inner_size (r : RenderingRegion) : Size :=
  ⟨r.size.width - 2, r.size.height - 2⟩

def RenderingRegion.set_border_color (r : RenderingRegion) (color : Color) :
    RenderingRegion :=
  { r with border_color := color }

/-- Mirror of `RenderingRegion::split_vertically_at`.  The source computes
`(self.size.width as f32 * percentage) as usize`; the floating-point value
is modelled as an exact rational, the `as usize` cast of the non-negative
finite product being truncation (floor).  The source's
`assert!(percentage > 0.0 && percentage < 1.0)` is modelled by returning
`none` outside that range. -/
def RenderingRegion.split_vertically_at (r : RenderingRegion) (percentage : ℚ) :
    Option (RenderingRegion × RenderingRegion) :=
  if 0 < percentage ∧ percentage < 1 then
    let left_width := (⌊(r.size.width : ℚ) * percentage⌋).toNat
    let right_width := r.size.width - left_width
    some
      ({ title := none, position := r.position,
         size := ⟨left_width, r.size.height⟩, border_color := r.border_color },
       { title := none,
         position := ⟨r.position.x + left_width, r.position.y⟩,
         size := ⟨right_width, r.size.height⟩, border_color := r.border_color })
  else none

/-- Mirror of `RenderingRegion::split_hotizontally_at` (source spelling).
Same modelling conventions as the vertical split. -/
def RenderingRegion.split_hotizontally_at (r : RenderingRegion) (percentage : ℚ) :
    Option (RenderingRegion × RenderingRegion) :=
  if 0 < percentage ∧ percentage < 1 then
    let top_height := (⌊(r.size.height : ℚ) * percentage⌋).toNat
    let bottom_height := r.size.height - top_height
    some
      ({ title := none, position := r.position,
         size := ⟨r.size.width, top_height⟩, border_color := r.border_color },
       { title := none,
         position := ⟨r.position.x, r.position.y + top_height⟩,
         size := ⟨r.size.width, bottom_height⟩, border_color := r.border_color })
  else none

/-- Truncating `n * percentage` for a ratio below one never exceeds `n`. -/
theorem split_extent_le (n : Nat) (p : ℚ) (_h0 : 0 ≤ p) (h1 : p < 1) :
    (⌊(n : ℚ) * p⌋).toNat ≤ n := by
  have hmul : (n : ℚ) * p ≤ (n : ℚ) :=
    mul_le_of_le_one_right (by positivity) h1.le
  have h2 : ⌊(n : ℚ) * p⌋ ≤ ⌊(n : ℚ)⌋ := Int.floor_le_floor hmul
  rw [Int.floor_natCast] at h2
  omega

/-- C4 (confirmed).  For every region and every split ratio strictly between
0 and 1, `split_vertically_at` (resp. `split_hotizontally_at`) yields two
regions whose widths (resp. heights) sum exactly to the parent's width
(resp. height), whose other dimension equals the parent's, and whose
positions are disjoint and contiguous: the second region's position is the
parent's position offset by the first region's extent on the split axis.
(The source's f32 ratio is modelled as an exact rational.) -/
theorem split_partition (r : RenderingRegion) (p : ℚ) (h0 : 0 < p) (h1 : p < 1) :
    (∃ left right, r.split_vertically_at p = some (left, right) ∧
      left.size.width + right.size.width = r.size.width ∧
      left.size.height = r.size.height ∧ right.size.height = r.size.height ∧
      left.position = r.position ∧
      right.position = ⟨r.position.x + left.size.width, r.position.y⟩) ∧
    (∃ top bottom, r.split_hotizontally_at p = some (top, bottom) ∧
      top.size.height + bottom.size.height = r.size.height ∧
      top.size.width = r.size.width ∧ bottom.size.width = r.size.width ∧
      top.position = r.position ∧
      bottom.position = ⟨r.position.x, r.position.y + top.size.height⟩) := by
  have hlew : (⌊(r.size.width : ℚ) * p⌋).toNat ≤ r.size.width :=
    split_extent_le r.size.width p h0.le h1
  have hleh : (⌊(r.size.height : ℚ) * p⌋).toNat ≤ r.size.height :=
    split_extent_le r.size.height p h0.le h1
  have hpc : 0 < p ∧ p < 1 := ⟨h0, h1⟩
  constructor
  · refine ⟨{ title := none
              position := r.position
              size := ⟨(⌊(r.size.width : ℚ) * p⌋).toNat, r.size.height⟩
              border_color := r.border_color },
      { title := none
        position := ⟨r.position.x + (⌊(r.size.width : ℚ) * p⌋).toNat, r.position.y⟩
        size := ⟨r.size.width - (⌊(r.size.width : ℚ) * p⌋).toNat, r.size.height⟩
        border_color := r.border_color },
      ?_, ?_, rfl, rfl, rfl, rfl⟩
    · simp only [RenderingRegion.split_vertically_at, if_pos hpc]
    · exact Nat.add_sub_cancel' hlew
  · refine ⟨{ title := none
              position := r.position
              size := ⟨r.size.width, (⌊(r.size.height : ℚ) * p⌋).toNat⟩
              border_color := r.border_color },
      { title := none
        position := ⟨r.position.x, r.position.y + (⌊(r.size.height : ℚ) * p⌋).toNat⟩
        size := ⟨r.size.width, r.size.height - (⌊(r.size.height : ℚ) * p⌋).toNat⟩
        border_color := r.border_color },
      ?_, ?_, rfl, rfl, rfl, rfl⟩
    · simp only [RenderingRegion.split_hotizontally_at, if_pos hpc]
    · exact Nat.add_sub_cancel' hleh

/-- Witness for C4 at a 10×7 region and ratio 1/2. -/
theorem split_partition_witness :
    ∃ left right,
      (RenderingRegion.new none ⟨0, 0⟩ ⟨10, 7⟩).split_vertically_at (1/2)
        = some (left, right) ∧
      left.size.width + right.size.width = 10 := by
  obtain ⟨left, right, hsome, hsum, -⟩ :=
    (split_partition (RenderingRegion.new none ⟨0, 0⟩ ⟨10, 7⟩) (1/2)
      one_half_pos one_half_lt_one).1
  exact ⟨left, right, hsome, hsum⟩

/-- C8 counterexample.  A freshly created region — no border colour was ever
set; the field still holds the default colour, and the type has no
borderless state at all — of size 10×10 has inner size 8×8, not 10×10:
`inner_size` subtracts the border frame unconditionally. -/
theorem inner_size_borderless_cex :
    (RenderingRegion.new none ⟨0, 0⟩ ⟨10, 10⟩).border_color = Color.Default ∧
    (RenderingRegion.new none ⟨0, 0⟩ ⟨10, 10⟩).inner_size = ⟨8, 8⟩ ∧
    (RenderingRegion.new none ⟨0, 0⟩ ⟨10, 10⟩).inner_size ≠ (⟨10, 10⟩ : Size) := by
  refine ⟨rfl, rfl, ?_⟩
  decide

/-- C8 (corrected).  The usable (inner) size always equals size − 2 on each
axis: the border offset is unconditionally 1.  The region type has no
borderless state — the border colour merely defaults to the terminal
default colour and `render` always paints the frame — so a region whose
border colour was never set still loses the two border cells per axis, and
setting any border colour leaves the usable size unchanged. -/
theorem inner_size_always_subtracts_border (r : RenderingRegion) :
    r.inner_size = ⟨r.size.width - 2, r.size.height - 2⟩ ∧
    (∀ c, (r.set_border_color c).inner_size = r.inner_size) ∧
    (2 ≤ r.size.width → r.inner_size.width + 2 = r.size.width) ∧
    (2 ≤ r.size.height → r.inner_size.height + 2 = r.size.height) := by
  refine ⟨rfl, fun c => rfl, fun h => ?_, fun h => ?_⟩ <;>
    simp only [RenderingRegion.inner_size] <;> omega

/-- Witness for C8 at a 10×7 region. -/
theorem inner_size_witness :
    2 ≤ (10 : Nat) ∧
    (RenderingRegion.new none ⟨0, 0⟩ ⟨10, 7⟩).inner_size.width + 2 = 10 :=
  ⟨by decide,
    (inner_size_always_subtracts_border (RenderingRegion.new none ⟨0, 0⟩ ⟨10, 7⟩)).2.2.1
      (by decide)⟩

/-! ## Table column widths (src/tui.rs, Table::new and Table::change_table)

Cells are modelled as Lean strings; `len()` is modelled as the character
count (the cells the application produces are the relevant content, and the
claims quantify over character lengths). -/

/-- Rust iterator `max` over the row lengths
(`items.iter().map(|row| row.len()).max()`): `none` on an empty sequence. -/
def iterMax : List Nat → Option Nat
  | [] => none
  | x :: rest =>
    match iterMax rest with
    | none => some x
    | some m => some (max x m)

/-- Inner loop of the column-length computation: for each cell of a row,
`if item.len() > column_lengths[i] { column_lengths[i] = item.len() }`.
The indexing is always in bounds because the accumulator has
`max_row_size ≥ row.len()` entries; the empty-accumulator case below is
unreachable under that invariant. -/
def bump_columns : List Nat → List String → List Nat
  | cols, [] => cols
  | [], _ :: _ => []
  | c :: cs, item :: rest =>
    (if item.length > c then item.length else c) :: bump_columns cs rest

/-- Column lengths as computed by `Table::new` / `Table::change_table`:
a vector of `max_row_size` zeros, bumped by every row in order. -/
def column_lengths (maxRowSize : Nat) (items : List (List String)) : List Nat :=
  items.foldl bump_columns (List.replicate maxRowSize 0)

/-- Mirror of the width bookkeeping of `Table::new`: the row-size maximum is
taken with `.max().unwrap_or(0)`, the content width is
`column_lengths.iter().sum() + column_lengths.len()`, and `max_width` clamps
it from below by the region's inner width; `assert!(items.len() <=
inner_size.height)` is modelled by `none`.  Returns the stored column
lengths, the raw content width and `max_width`. -/
def Table.new (innerW innerH : Nat) (items : List (List String)) :
    Option (List Nat × Nat × Nat) :=
  let maxRowSize := (iterMax (items.map List.length)).getD 0
  let cols := column_lengths maxRowSize items
  let contentW := cols.sum + cols.length
  let maxW := max contentW innerW
  if items.length ≤ innerH then some (cols, contentW, maxW) else none

/-- Mirror of `Table::change_table`: identical to `Table.new` except the
row-size maximum is taken with `.max().unwrap()`, which panics (`none`) on
an empty row sequence. -/
def Table.change_table (innerW innerH : Nat) (items : List (List String)) :
    Option (List Nat × Nat × Nat) :=
  match iterMax (items.map List.length) with
  | none => none
  | some maxRowSize =>
    let cols := column_lengths maxRowSize items
    let contentW := cols.sum + cols.length
    let maxW := max contentW innerW
    if items.length ≤ innerH then some (cols, contentW, maxW) else none

/-- Column width as the specification words it: the maximum cell character
length at column index `j` across all rows, a missing column contributing
width 0. -/
def col_width_spec (items : List (List String)) (j : Nat) : Nat :=
  (items.map (fun row => (row.getD j "").length)).foldr max 0

theorem iterMax_eq_none_iff (l : List Nat) : iterMax l = none ↔ l = [] := by
  cases l with
  | nil => simp [iterMax]
  | cons x rest =>
    rw [iterMax]
    cases iterMax rest <;> simp

theorem iterMax_is_max (l : List Nat) (m : Nat) (hm : iterMax l = some m) :
    ∀ x ∈ l, x ≤ m := by
  induction l generalizing m with
  | nil => simp [iterMax] at hm
  | cons y rest ih =>
    rw [iterMax] at hm
    rcases hr : iterMax rest with _ | m'
    · rw [hr] at hm
      obtain rfl : y = m := by simpa using hm
      have hnil : rest = [] := (iterMax_eq_none_iff rest).mp hr
      subst hnil
      simp
    · rw [hr] at hm
      obtain rfl : max y m' = m := by simpa using hm
      intro x hx
      rcases List.mem_cons.mp hx with rfl | hx'
      · exact le_max_left _ _
      · exact le_trans (ih m' hr x hx') (le_max_right _ _)

theorem bump_columns_length (cols : List Nat) (row : List String) :
    (bump_columns cols row).length = cols.length := by
  induction cols generalizing row with
  | nil => cases row <;> simp [bump_columns]
  | cons c cs ih =>
    cases row with
    | nil => simp [bump_columns]
    | cons item rest => simp [bump_columns, ih]

theorem getD_replicate_zero (m j : Nat) : (List.replicate m (0 : Nat)).getD j 0 = 0 := by
  induction m generalizing j with
  | zero => simp [List.getD]
  | succ k ih =>
    cases j with
    | zero => simp [List.replicate_succ]
    | succ j' =>
      rw [List.replicate_succ, List.getD_cons_succ]
      exact ih j'

theorem bump_columns_getD (cols : List Nat) (row : List String) (j : Nat)
    (hlen : row.length ≤ cols.length) :
    (bump_columns cols row).getD j 0 = max (cols.getD j 0) ((row.getD j "").length) := by
  induction cols generalizing row j with
  | nil =>
    have : row = [] := by
      cases row
      · rfl
      · simp at hlen
    subst this
    simp [bump_columns]
  | cons c cs ih =>
    cases row with
    | nil => simp [bump_columns]
    | cons item rest =>
      cases j with
      | zero =>
        simp only [bump_columns, List.getD_cons_zero]
        split <;> omega
      | succ j' =>
        simp only [bump_columns, List.getD_cons_succ]
        exact ih rest j' (by simpa using hlen)

theorem foldl_bump_columns_length (items : List (List String)) (cols : List Nat) :
    (items.foldl bump_columns cols).length = cols.length := by
  induction items generalizing cols with
  | nil => simp
  | cons r rs ih => simp [ih, bump_columns_length]

theorem foldl_bump_columns_getD (items : List (List String)) (cols : List Nat)
    (j : Nat) (h : ∀ row ∈ items, row.length ≤ cols.length) :
    (items.foldl bump_columns cols).getD j 0 =
      max (cols.getD j 0) (col_width_spec items j) := by
  induction items generalizing cols with
  | nil => simp [col_width_spec]
  | cons r rs ih =>
    have h1 : r.length ≤ cols.length := h r (by simp)
    have h2 : ∀ row ∈ rs, row.length ≤ (bump_columns cols r).length := by
      intro row hrow
      rw [bump_columns_length]
      exact h row (by simp [hrow])
    calc ((r :: rs).foldl bump_columns cols).getD j 0
        = (rs.foldl bump_columns (bump_columns cols r)).getD j 0 := by simp
      _ = max ((bump_columns cols r).getD j 0) (col_width_spec rs j) := ih _ h2
      _ = max (max (cols.getD j 0) ((r.getD j "").length)) (col_width_spec rs j) := by
          rw [bump_columns_getD cols r j h1]
      _ = max (cols.getD j 0) (col_width_spec (r :: rs) j) := by
          rw [max_assoc]
          simp [col_width_spec]

/-- C5 counterexample.  For the rows [["A","1"],["BB","22"]] `change_table`
computes column lengths [2,2] as the claim states, but the total content
width it computes is `sum + column count` = 6, not
`sum + (column count − 1)` = 5: the code accounts one separator slot per
column, including a trailing one. -/
theorem change_table_width_cex :
    Table.change_table 20 10 [["A", "1"], ["BB", "22"]] = some ([2, 2], 6, 20) ∧
    (6 : Nat) ≠ [2, 2].sum + ([2, 2].length - 1) := by
  constructor
  · decide
  · decide

/-- C5 (corrected).  For every non-empty row sequence that satisfies the
height assertion, `change_table` recomputes each column's width as the
maximum cell character length at that column index across all rows (missing
columns contribute width 0), and the total content width it computes equals
the sum of the column widths plus the column count (one separator slot per
column, including a trailing one — not column count − 1), clamped from
below by the region's inner width to give `max_width`. -/
theorem change_table_columns (innerW innerH : Nat) (items : List (List String))
    (hne : items ≠ []) (hfit : items.length ≤ innerH) :
    ∃ cols contentW maxW,
      Table.change_table innerW innerH items = some (cols, contentW, maxW) ∧
      (∀ j, cols.getD j 0 = col_width_spec items j) ∧
      contentW = cols.sum + cols.length ∧
      maxW = max contentW innerW := by
  rcases hmax : iterMax (items.map List.length) with _ | m
  · exact absurd ((iterMax_eq_none_iff _).mp hmax) (by simpa using hne)
  · refine ⟨column_lengths m items, _, _, ?_, ?_, rfl, rfl⟩
    · rw [Table.change_table, hmax]
      simp [if_pos hfit]
    · intro j
      have hrows : ∀ row ∈ items, row.length ≤ (List.replicate m (0 : Nat)).length := by
        intro row hrow
        rw [List.length_replicate]
        exact iterMax_is_max _ m hmax row.length (List.mem_map_of_mem _ hrow)
      rw [column_lengths, foldl_bump_columns_getD items _ j hrows,
        getD_replicate_zero]
      simp

/-- Witness for C5 at the rows [["A","1"],["BB","22"]]. -/
theorem change_table_columns_witness :
    ∃ cols contentW maxW,
      Table.change_table 20 10 [["A", "1"], ["BB", "22"]] = some (cols, contentW, maxW) ∧
      contentW = cols.sum + cols.length := by
  obtain ⟨cols, contentW, maxW, h1, -, h3, -⟩ :=
    change_table_columns 20 10 [["A", "1"], ["BB", "22"]] (by decide) (by decide)
  exact ⟨cols, contentW, maxW, h1, h3⟩

/-- C10 (confirmed).  On the empty row sequence, `Table::new` succeeds
(zero columns, content width 0) because it takes the row-size maximum with
`.unwrap_or(0)`, while `change_table` fails on it (`.unwrap()` of `None`);
hence every successful `change_table` call had a non-empty replacement row
sequence. -/
theorem table_new_empty_but_change_table_nonempty :
    Table.new 20 10 [] = some ([], 0, 20) ∧
    Table.change_table 20 10 [] = none ∧
    (∀ innerW innerH (items : List (List String)),
      (Table.change_table innerW innerH items).isSome → items ≠ []) := by
  refine ⟨by decide, by decide, ?_⟩
  intro innerW innerH items h hnil
  subst hnil
  simp [Table.change_table, iterMax] at h

/-- Witness for C10: a successful `change_table` call on a one-row table. -/
theorem table_change_nonempty_witness : ([["A"]] : List (List String)) ≠ [] :=
  table_new_empty_but_change_table_nonempty.2.2 20 10 [["A"]] (by decide)

/-! ## Widget rendering as character paint sequences (src/tui.rs)

A render is modelled as the ordered list of character writes it performs on
the cell buffer.  Colour-only writes (row highlighting, the colour part of
border painting) carry no character and are not modelled — no claim
involves colours. -/

/-- One character paint on the cell buffer: absolute x, y, character. -/
abbrev Write := Nat × Nat × Char

inductive HorizontalAlignment
  | Left
  | Right
  | Center

/-- The border glyph `RenderingRegion::render` paints at region-local
(x, y), if any: the top row first (corners, then dashes), then the bottom
row, then the vertical edges; interior cells are skipped (`continue`). -/
def border_glyph (w h x y : Nat) : Option Char :=
  if y = 0 then
    some (if x = 0 then '┌' else if x = w - 1 then '┐' else '─')
  else if y = h - 1 then
    some (if x = 0 then '└' else if x = w - 1 then '┘' else '─')
  else if x = 0 ∨ x = w - 1 then some '│'
  else none

/-- Border writes of `RenderingRegion::render`, in the source's row-major
order (`for y in 0..height { for x in 0..width { ... } }`). -/
def region_border_writes (w h : Nat) : List Write :=
  (List.range h).flatMap (fun y =>
    (List.range w).filterMap (fun x =>
      (border_glyph w h x y).map (fun c => (x, y, c))))

/-- Title writes of `RenderingRegion::render`: character `x` of the title
goes to (x + 2, 0), and the loop breaks as soon as
`position.x >= inner_size().width - 1`. -/
def title_writes (w : Nat) : Nat → List Char → List Write
  | _, [] => []
  | x, c :: rest =>
    if (w - 2) - 1 ≤ x + 2 then []
    else (x + 2, 0, c) :: title_writes w (x + 1) rest

/-- Mirror of `RenderingRegion::render` (character writes): the border
glyphs in row-major order, then the title characters. -/
def RenderingRegion.render_writes (w h : Nat) (title : Option String) : List Write :=
  region_border_writes w h ++
    (match title with
     | none => []
     | some t => title_writes w 0 t.toList)

/-- Character writes of one row string, mirroring
`for (x, c) in item.chars().enumerate()` painting at
`Vector2::new(x, y) + offset`. -/
def string_writes (off : Nat × Nat) (y : Nat) : Nat → List Char → List Write
  | _, [] => []
  | x, c :: rest => (x + off.1, y + off.2, c) :: string_writes off y (x + 1) rest

/-- Content loop of `ItemList::render`:
`for (y, item) in self.items.iter().enumerate()` — every stored item is
painted; there is no windowing to the usable height. -/
def item_list_content_writes (off : Nat × Nat) : Nat → List String → List Write
  | _, [] => []
  | y, item :: rest =>
    string_writes off y 0 item.toList ++ item_list_content_writes off (y + 1) rest

/-- Mirror of `ItemList::render` (character writes): the region's border and
title are painted first, then — unless the list is empty, in which case the
method returns early — every row's characters. -/
def ItemList.render_writes (w h : Nat) (title : Option String)
    (off : Nat × Nat) (items : List String) : List Write :=
  RenderingRegion.render_writes w h title ++
    (if items.isEmpty then [] else item_list_content_writes off 0 items)

/-- Mirror of the assertions guarding `ItemList::new` and
`ItemList::change_list`: `assert!(items.len() <= inner_size.height)` and
`assert!(items.iter().map(|item| item.len()).max() < Some(inner_size.width))`
(Rust orders `Option`s with `None < Some(w)` for every `w`).  The region
size is (w, h), its inner size (w − 2, h − 2).  Returns the stored items,
`none` when an assertion fails. -/
def ItemList.change_list (w h : Nat) (items : List String) : Option (List String) :=
  let maxOk : Bool :=
    match iterMax (items.map String.length) with
    | none => true
    | some m => decide (m < w - 2)
  if items.length ≤ h - 2 ∧ maxOk = true then some items else none

/-- Inner character loop of `Table::render` for one cell: character `k` of
the cell is painted at content x `column_offset + column_index + k` (the
added `column_index` creates the separator gaps), and the whole row is
aborted (`break 'line`) as soon as that x reaches the region's inner width.
Returns the writes and the abort flag. -/
def table_item_writes (innerW : Nat) (off : Nat × Nat) (colOff ci ri : Nat) :
    Nat → List Char → List Write × Bool
  | _, [] => ([], false)
  | k, c :: rest =>
    if innerW ≤ colOff + ci + k then ([], true)
    else
      let p := table_item_writes innerW off colOff ci ri (k + 1) rest
      ((colOff + ci + k + off.1, ri + off.2, c) :: p.1, p.2)

/-- Column loop of `Table::render` for one row:
`column_offset = column_lengths.iter().take(column_index).sum()`. -/
def table_row_writes (innerW : Nat) (off : Nat × Nat) (cols : List Nat) (ri : Nat) :
    Nat → List String → List Write
  | _, [] => []
  | ci, item :: rest =>
    let p := table_item_writes innerW off ((cols.take ci).sum) ci ri 0 item.toList
    if p.2 then p.1 else p.1 ++ table_row_writes innerW off cols ri (ci + 1) rest

/-- Row loop of `Table::render`. -/
def table_content_writes (innerW : Nat) (off : Nat × Nat) (cols : List Nat) :
    Nat → List (List String) → List Write
  | _, [] => []
  | ri, row :: rest =>
    table_row_writes innerW off cols ri 0 row ++
      table_content_writes innerW off cols (ri + 1) rest

/-- Mirror of `Table::render` (character writes): border and title first,
then — unless the table is empty, in which case the method returns early —
the rows, each cell truncated at the inner width. -/
def Table.render_writes (w h : Nat) (title : Option String) (off : Nat × Nat)
    (cols : List Nat) (items : List (List String)) : List Write :=
  RenderingRegion.render_writes w h title ++
    (if items.isEmpty then [] else table_content_writes (w - 2) off cols 0 items)

/-- Line loop of `Text::render`: the hardwrapped lines (lazily `take`n to
the inner height), each with its alignment-dependent x offset, painted at
`Vector2::new(row_index, line_index) + Vector2::new(x_offset, y_offset)`. -/
def text_lines_writes (w : Nat) (ha : HorizontalAlignment) (yOff : Nat) :
    Nat → List (List Char) → List Write
  | _, [] => []
  | li, line :: rest =>
    let xOff := match ha with
      | HorizontalAlignment.Left => 1
      | HorizontalAlignment.Right => w - line.length - 1
      | HorizontalAlignment.Center => (w - line.length) / 2
    string_writes (xOff, yOff) li 0 line ++ text_lines_writes w ha yOff (li + 1) rest

/-- Content writes of `Text::render`: the hardwrap producer is run at the
region's inner width and lazily consumed for at most inner-height lines
(`.take(inner_size().height)`), which the fuel argument models exactly. -/
def text_content_writes (w h : Nat) (ha : HorizontalAlignment) (yOff : Nat)
    (text : List Char) : List Write :=
  text_lines_writes w ha yOff 0 ((hardwrapRun (w - 2) (h - 2) text).1.map Prod.fst)

/-- Mirror of `Text::render` (character writes): border and title first,
then the wrapped content.  `y_offset` is the field the widget stores
(recomputed by `change_text`, 1 for top alignment). -/
def Text.render_writes (w h : Nat) (title : Option String)
    (ha : HorizontalAlignment) (yOff : Nat) (text : List Char) : List Write :=
  RenderingRegion.render_writes w h title ++ text_content_writes w h ha yOff text

theorem iterMax_mem (l : List Nat) (m : Nat) (hm : iterMax l = some m) : m ∈ l := by
  induction l generalizing m with
  | nil => simp [iterMax] at hm
  | cons y rest ih =>
    rw [iterMax] at hm
    rcases hr : iterMax rest with _ | m'
    · rw [hr] at hm
      obtain rfl : y = m := by simpa using hm
      simp
    · rw [hr] at hm
      obtain rfl : max y m' = m := by simpa using hm
      rcases max_choice y m' with h | h <;> rw [h]
      · simp
      · simp [ih m' hr]

theorem itemlist_maxOk_iff (items : List String) (iw : Nat) :
    ((match iterMax (items.map String.length) with
      | none => true
      | some m => decide (m < iw)) = true) ↔
      ∀ item ∈ items, item.length < iw := by
  rcases hm : iterMax (items.map String.length) with _ | m
  · have : items = [] := by
      have := (iterMax_eq_none_iff _).mp hm
      simpa using this
    subst this
    simp
  · simp only [decide_eq_true_eq]
    constructor
    · intro hlt item hitem
      exact lt_of_le_of_lt
        (iterMax_is_max _ m hm item.length (List.mem_map_of_mem _ hitem)) hlt
    · intro hall
      obtain ⟨item, hitem, rfl⟩ := List.mem_map.mp (iterMax_mem _ m hm)
      exact hall item hitem

theorem string_writes_mem (off : Nat × Nat) (y : Nat) :
    ∀ (x0 : Nat) (cs : List Char) (t : Write), t ∈ string_writes off y x0 cs →
      ∃ k, k < cs.length ∧ t.1 = x0 + k + off.1 ∧ t.2.1 = y + off.2 := by
  intro x0 cs
  induction cs generalizing x0 with
  | nil => simp [string_writes]
  | cons c rest ih =>
    intro t ht
    rw [string_writes] at ht
    rcases List.mem_cons.mp ht with rfl | ht'
    · exact ⟨0, by simp, by simp, rfl⟩
    · obtain ⟨k, hk, h1, h2⟩ := ih (x0 + 1) t ht'
      exact ⟨k + 1, by simp only [List.length_cons]; omega, by omega, h2⟩

theorem string_writes_head_mem (off : Nat × Nat) (y x0 : Nat) (c : Char)
    (rest : List Char) :
    (x0 + off.1, y + off.2, c) ∈ string_writes off y x0 (c :: rest) := by
  rw [string_writes]
  exact List.mem_cons_self _ _

theorem item_list_content_writes_mem (off : Nat × Nat) :
    ∀ (y0 : Nat) (items : List String) (t : Write),
      t ∈ item_list_content_writes off y0 items →
      ∃ i, i < items.length ∧ ∃ k, k < (items.getD i "").length ∧
        t.1 = k + off.1 ∧ t.2.1 = y0 + i + off.2 := by
  intro y0 items
  induction items generalizing y0 with
  | nil => simp [item_list_content_writes]
  | cons item rest ih =>
    intro t ht
    rw [item_list_content_writes] at ht
    rcases List.mem_append.mp ht with h | h
    · obtain ⟨k, hk, h1, h2⟩ := string_writes_mem off y0 0 item.toList t h
      refine ⟨0, by simp, k, ?_, by omega, by omega⟩
      simpa using hk
    · obtain ⟨i, hi, k, hk, h1, h2⟩ := ih (y0 + 1) t h
      exact ⟨i + 1, by simp only [List.length_cons]; omega, k,
        by simpa using hk, h1, by omega⟩

theorem item_list_content_writes_covers (off : Nat × Nat) :
    ∀ (y0 : Nat) (items : List String) (i : Nat), i < items.length →
      0 < (items.getD i "").length →
      ∃ t ∈ item_list_content_writes off y0 items, t.2.1 = y0 + i + off.2 := by
  intro y0 items
  induction items generalizing y0 with
  | nil =>
    intro i hi
    simp at hi
  | cons item rest ih =>
    intro i hi hlen
    cases i with
    | zero =>
      have hne : item.toList ≠ [] := by
        refine List.ne_nil_of_length_pos ?_
        simpa using hlen
      obtain ⟨c, cs, hc⟩ := List.exists_cons_of_ne_nil hne
      refine ⟨(0 + off.1, y0 + off.2, c), ?_, by simp⟩
      rw [item_list_content_writes]
      refine List.mem_append_left _ ?_
      rw [hc]
      exact string_writes_head_mem off y0 0 c cs
    | succ i' =>
      obtain ⟨t, ht, hty⟩ :=
        ih (y0 + 1) i' (by simpa using hi) (by simpa using hlen)
      refine ⟨t, ?_, by omega⟩
      rw [item_list_content_writes]
      exact List.mem_append_right _ ht

/-- C6 counterexample.  An ItemList with region height 5 (usable height 3)
rejects a 4-row replacement at runtime — `change_list` asserts instead of
windowing — while a fitting 3-row replacement succeeds. -/
theorem change_list_rejects_cex :
    ItemList.change_list 10 5 ["a", "b", "c", "d"] = none ∧
    (ItemList.change_list 10 5 ["a", "b", "c"]).isSome = true := by
  constructor
  · decide
  · decide

/-- C6 (corrected).  Replacing an ItemList's content does not succeed
regardless of length: `change_list` asserts, succeeding exactly when the
replacement fits — at most usable-height rows, every row shorter than the
usable width.  Rendering paints every stored row (the content loop has no
windowing; the change-time assertions are what keep the rows inside the
usable area): every content write lands in the row band of the stored list,
and every non-empty stored row receives a write. -/
theorem change_list_asserts_fit (w h : Nat) (items : List String) :
    ((ItemList.change_list w h items).isSome ↔
      items.length ≤ h - 2 ∧ ∀ item ∈ items, item.length < w - 2) ∧
    (∀ off y0 t, t ∈ item_list_content_writes off y0 items →
      ∃ i, i < items.length ∧ t.2.1 = y0 + i + off.2) ∧
    (∀ off y0 i, i < items.length → 0 < (items.getD i "").length →
      ∃ t ∈ item_list_content_writes off y0 items, t.2.1 = y0 + i + off.2) := by
  refine ⟨?_, ?_, ?_⟩
  · simp only [ItemList.change_list]
    by_cases hcond : items.length ≤ h - 2 ∧
        (match iterMax (items.map String.length) with
          | none => true
          | some m => decide (m < w - 2)) = true
    · rw [if_pos hcond]
      simp only [Option.isSome_some, true_iff]
      exact ⟨hcond.1, (itemlist_maxOk_iff items (w - 2)).mp hcond.2⟩
    · rw [if_neg hcond]
      simp only [Option.isSome_none, Bool.false_eq_true, false_iff]
      intro hcon
      exact hcond ⟨hcon.1, (itemlist_maxOk_iff items (w - 2)).mpr hcon.2⟩
  · intro off y0 t ht
    obtain ⟨i, hi, k, hk, h1, h2⟩ := item_list_content_writes_mem off y0 items t ht
    exact ⟨i, hi, h2⟩
  · intro off y0 i hi hlen
    exact item_list_content_writes_covers off y0 items i hi hlen

/-- Witness for C6: a fitting one-row replacement succeeds. -/
theorem change_list_witness : (ItemList.change_list 10 5 ["ab"]).isSome = true :=
  (change_list_asserts_fit 10 5 ["ab"]).1.mpr ⟨by decide, by decide⟩

theorem table_item_writes_mem (innerW : Nat) (off : Nat × Nat) (colOff ci ri : Nat) :
    ∀ (k0 : Nat) (cs : List Char) (t : Write),
      t ∈ (table_item_writes innerW off colOff ci ri k0 cs).1 →
      (∃ x, x < innerW ∧ t.1 = x + off.1) ∧ t.2.1 = ri + off.2 := by
  intro k0 cs
  induction cs generalizing k0 with
  | nil => simp [table_item_writes]
  | cons c rest ih =>
    intro t ht
    rw [table_item_writes] at ht
    by_cases hx : innerW ≤ colOff + ci + k0
    · rw [if_pos hx] at ht
      simp at ht
    · rw [if_neg hx] at ht
      simp only [List.mem_cons] at ht
      rcases ht with rfl | ht'
      · exact ⟨⟨colOff + ci + k0, by omega, rfl⟩, rfl⟩
      · exact ih (k0 + 1) t ht'

theorem table_row_writes_mem (innerW : Nat) (off : Nat × Nat) (cols : List Nat)
    (ri : Nat) :
    ∀ (ci0 : Nat) (row : List String) (t : Write),
      t ∈ table_row_writes innerW off cols ri ci0 row →
      (∃ x, x < innerW ∧ t.1 = x + off.1) ∧ t.2.1 = ri + off.2 := by
  intro ci0 row
  induction row generalizing ci0 with
  | nil => simp [table_row_writes]
  | cons item rest ih =>
    intro t ht
    rw [table_row_writes] at ht
    by_cases hp : (table_item_writes innerW off ((cols.take ci0).sum) ci0 ri
        0 item.toList).2 = true
    · rw [if_pos hp] at ht
      exact table_item_writes_mem innerW off _ ci0 ri 0 item.toList t ht
    · rw [if_neg hp] at ht
      rcases List.mem_append.mp ht with h | h
      · exact table_item_writes_mem innerW off _ ci0 ri 0 item.toList t h
      · exact ih (ci0 + 1) t h

theorem table_content_writes_mem (innerW : Nat) (off : Nat × Nat) (cols : List Nat) :
    ∀ (ri0 : Nat) (items : List (List String)) (t : Write),
      t ∈ table_content_writes innerW off cols ri0 items →
      (∃ x, x < innerW ∧ t.1 = x + off.1) ∧
      (∃ i, i < items.length ∧ t.2.1 = ri0 + i + off.2) := by
  intro ri0 items
  induction items generalizing ri0 with
  | nil => simp [table_content_writes]
  | cons row rest ih =>
    intro t ht
    rw [table_content_writes] at ht
    rcases List.mem_append.mp ht with h | h
    · obtain ⟨hx, hy⟩ := table_row_writes_mem innerW off cols ri0 0 row t h
      exact ⟨hx, 0, by simp only [List.length_cons]; omega, by omega⟩
    · obtain ⟨hx, i, hi, hy⟩ := ih (ri0 + 1) t h
      exact ⟨hx, i + 1, by simp only [List.length_cons]; omega, by omega⟩

theorem text_lines_writes_left_mem (w yOff : Nat) :
    ∀ (li0 : Nat) (lines : List (List Char)) (t : Write),
      t ∈ text_lines_writes w HorizontalAlignment.Left yOff li0 lines →
      ∃ i, i < lines.length ∧ ∃ k, k < (lines.getD i []).length ∧
        t.1 = k + 1 ∧ t.2.1 = li0 + i + yOff := by
  intro li0 lines
  induction lines generalizing li0 with
  | nil => simp [text_lines_writes]
  | cons line rest ih =>
    intro t ht
    rw [text_lines_writes] at ht
    rcases List.mem_append.mp ht with h | h
    · obtain ⟨k, hk, h1, h2⟩ := string_writes_mem (1, yOff) li0 0 line t h
      exact ⟨0, by simp, k, by simpa using hk, by omega, by omega⟩
    · obtain ⟨i, hi, k, hk, h1, h2⟩ := ih (li0 + 1) t h
      exact ⟨i + 1, by simp only [List.length_cons]; omega, k,
        by simpa using hk, h1, by omega⟩

/-- C7 counterexample.  For a concrete 6×4 table holding the single cell
"A", `render` emits the border writes first — the very first paint is the
top-left corner glyph — and the content write for 'A' only afterwards, so
content is not painted before the border: the paint sequence is not the
content writes followed by the border writes. -/
theorem widget_render_order_cex :
    Table.render_writes 6 4 none (1, 1) [1] [["A"]] =
      RenderingRegion.render_writes 6 4 none ++
        table_content_writes 4 (1, 1) [1] 0 [["A"]] ∧
    (RenderingRegion.render_writes 6 4 none).head? = some (0, 0, '┌') ∧
    table_content_writes 4 (1, 1) [1] 0 [["A"]] = [(1, 1, 'A')] ∧
    Table.render_writes 6 4 none (1, 1) [1] [["A"]] ≠
      table_content_writes 4 (1, 1) [1] 0 [["A"]] ++
        RenderingRegion.render_writes 6 4 none := by
  refine ⟨by decide, by decide, by decide, by decide⟩

/-- C7 (corrected).  Every widget's `render` paints the region's border and
title FIRST and its own content afterwards (the opposite order of the
claim); the border nevertheless survives because in-contract content stays
strictly inside it: with the left/top placement offset (1, 1), ItemList
content satisfying the change-time assertions, Table content (thanks to the
truncation guard at the inner width) and Text content (wrapped at the inner
width, lazily taken to the inner height) only ever write cells with
1 ≤ x ≤ w − 2 and 1 ≤ y ≤ h − 2, never a border cell (x ∈ {0, w−1} or
y ∈ {0, h−1}). -/
theorem widget_render_borders_first :
    (∀ w h title off (items : List String),
      ItemList.render_writes w h title off items =
        RenderingRegion.render_writes w h title ++
          (if items.isEmpty then [] else item_list_content_writes off 0 items)) ∧
    (∀ w h title off cols (items : List (List String)),
      Table.render_writes w h title off cols items =
        RenderingRegion.render_writes w h title ++
          (if items.isEmpty then [] else table_content_writes (w - 2) off cols 0 items)) ∧
    (∀ w h title ha yOff (text : List Char),
      Text.render_writes w h title ha yOff text =
        RenderingRegion.render_writes w h title ++
          text_content_writes w h ha yOff text) ∧
    (∀ w h (items : List String), items.length ≤ h - 2 →
      (∀ item ∈ items, item.length < w - 2) →
      ∀ t ∈ item_list_content_writes (1, 1) 0 items,
        1 ≤ t.1 ∧ t.1 ≤ w - 2 ∧ 1 ≤ t.2.1 ∧ t.2.1 ≤ h - 2) ∧
    (∀ w h cols (items : List (List String)), items.length ≤ h - 2 →
      ∀ t ∈ table_content_writes (w - 2) (1, 1) cols 0 items,
        1 ≤ t.1 ∧ t.1 ≤ w - 2 ∧ 1 ≤ t.2.1 ∧ t.2.1 ≤ h - 2) ∧
    (∀ w h (text : List Char),
      ∀ t ∈ text_content_writes w h HorizontalAlignment.Left 1 text,
        1 ≤ t.1 ∧ t.1 ≤ w - 2 ∧ 1 ≤ t.2.1 ∧ t.2.1 ≤ h - 2) := by
  refine ⟨fun _ _ _ _ _ => rfl, fun _ _ _ _ _ _ => rfl, fun _ _ _ _ _ _ => rfl,
    ?_, ?_, ?_⟩
  · intro w h items hfit hwid t ht
    obtain ⟨i, hi, k, hk, h1, h2⟩ :=
      item_list_content_writes_mem (1, 1) 0 items t ht
    have hitem : (items.getD i "") ∈ items := by
      rw [List.getD_eq_getElem items "" hi]
      exact List.getElem_mem hi
    have hklt : k < w - 2 := lt_of_lt_of_le hk (le_of_lt (hwid _ hitem))
    refine ⟨by omega, by omega, by omega, by omega⟩
  · intro w h cols items hfit t ht
    obtain ⟨⟨x, hx, h1⟩, i, hi, h2⟩ :=
      table_content_writes_mem (w - 2) (1, 1) cols 0 items t ht
    refine ⟨by omega, by omega, by omega, by omega⟩
  · intro w h text t ht
    rw [text_content_writes] at ht
    obtain ⟨i, hi, k, hk, h1, h2⟩ := text_lines_writes_left_mem w 1 0 _ t ht
    have hcount : ((hardwrapRun (w - 2) (h - 2) text).1.map Prod.fst).length ≤ h - 2 := by
      rw [List.length_map]
      exact hardwrapRun_count_le (w - 2) (h - 2) text
    have hline :
        ((hardwrapRun (w - 2) (h - 2) text).1.map Prod.fst).getD i [] ∈
          (hardwrapRun (w - 2) (h - 2) text).1.map Prod.fst := by
      rw [List.getD_eq_getElem _ _ hi]
      exact List.getElem_mem hi
    obtain ⟨p, hp, hpe⟩ := List.mem_map.mp hline
    have hlinelen :
        (((hardwrapRun (w - 2) (h - 2) text).1.map Prod.fst).getD i []).length
          ≤ w - 2 := by
      rw [← hpe]
      exact hardwrapRun_line_length (w - 2) (h - 2) text p hp
    refine ⟨by omega, by omega, by omega, by omega⟩

/-- Witness for C7: the write painting 'a' of a fitting one-row ItemList
lands strictly inside the 10×5 border. -/
theorem widget_render_borders_first_witness :
    1 ≤ (1 : Nat) ∧ (1 : Nat) ≤ 8 ∧ 1 ≤ (1 : Nat) ∧ (1 : Nat) ≤ 3 :=
  widget_render_borders_first.2.2.2.1 10 5 ["ab"] (by decide) (by decide)
    (1, 1, 'a') (by decide)

/-! ## Selection navigation (src/app.rs, App::move_issue_selection_down/up
and App::move_sprint_selection_down/up)

The four move methods perform the same index/offset update; the issue pair
acts on (`active_issue`, `issue_offset`) with the issue list length and the
issues widget's usable height, the sprint pair on (`active_sprint`,
`sprint_offset`) likewise (plus an issue reset).  `usize` arithmetic wraps
in release mode; the subtraction `active - offset` genuinely wraps when
moving up past the top of the window, which is what makes the offset
decrement fire, so the wraparound is modelled explicitly. -/

/-- Two to the 64th: the usize modulus. -/
def W64 : Nat := 2 ^ 64

theorem W64_eq : W64 = 18446744073709551616 := by norm_num [W64]

/-- Wrapping 64-bit subtraction (both operands below `W64`). -/
def wrapSub (a b : Nat) : Nat := (a + (W64 - b)) % W64

structure Selection where
  active : Nat
  offset : Nat
  deriving DecidableEq

/-- Mirror of `App::move_issue_selection_down` restricted to the two fields
it navigates.  `len` is the current list's length (the claim's non-empty
premise, `1 ≤ len`, makes the Nat `len - 1` agree with usize), `height` the
widget's usable height. -/
def move_selection_down (len height : Nat) (s : Selection) : Selection :=
  if s.active ≥ len - 1 then s
  else
    let active := s.active + 1
    if wrapSub active s.offset ≥ height then ⟨active, s.offset + 1⟩
    else ⟨active, s.offset⟩

/-- Mirror of `App::move_issue_selection_up` restricted to the two fields
it navigates. -/
def move_selection_up (height : Nat) (s : Selection) : Selection :=
  if s.active = 0 then s
  else
    let active := s.active - 1
    if wrapSub active s.offset ≥ height then ⟨active, wrapSub s.offset 1⟩
    else ⟨active, s.offset⟩

/-- The row handed to `set_selected` after a move:
`self.active_issue - self.issue_offset` (usize, wrapping). -/
def selected_row (s : Selection) : Nat := wrapSub s.active s.offset

inductive MoveEvent
  | down
  | up

def run_moves (len height : Nat) (events : List MoveEvent) (s : Selection) :
    Selection :=
  events.foldl
    (fun st e =>
      match e with
      | MoveEvent.down => move_selection_down len height st
      | MoveEvent.up => move_selection_up height st)
    s

/-- The navigation invariant: the window offset never exceeds the active
index, the active index stays in range, and the active index stays inside
the visible window. -/
def SelInv (len height : Nat) (s : Selection) : Prop :=
  s.offset ≤ s.active ∧ s.active < len ∧ s.active - s.offset < height

theorem selInv_mk (len height a o : Nat) (h1 : o ≤ a) (h2 : a < len)
    (h3 : a - o < height) : SelInv len height ⟨a, o⟩ :=
  ⟨h1, h2, h3⟩

theorem wrapSub_of_le (a b : Nat) (hba : b ≤ a) (ha : a < W64) :
    wrapSub a b = a - b := by
  rw [wrapSub]
  rw [W64_eq] at *
  omega

theorem wrapSub_wrap (a b : Nat) (hab : a + 1 = b) (hb : b < W64) :
    wrapSub a b = W64 - 1 := by
  rw [wrapSub]
  rw [W64_eq] at *
  omega

theorem move_down_inv (len height : Nat) (hlenW : len < W64)
    (s : Selection) (hs : SelInv len height s) :
    SelInv len height (move_selection_down len height s) := by
  obtain ⟨h1, h2, h3⟩ := hs
  simp only [move_selection_down]
  by_cases hend : s.active ≥ len - 1
  · rw [if_pos hend]
    exact ⟨h1, h2, h3⟩
  · rw [if_neg hend]
    have hws : wrapSub (s.active + 1) s.offset = s.active + 1 - s.offset :=
      wrapSub_of_le _ _ (by omega) (by omega)
    by_cases hcond : wrapSub (s.active + 1) s.offset ≥ height
    · rw [if_pos hcond]
      rw [hws] at hcond
      exact selInv_mk _ _ _ _ (by omega) (by omega) (by omega)
    · rw [if_neg hcond]
      rw [hws] at hcond
      exact selInv_mk _ _ _ _ (by omega) (by omega) (by omega)

theorem move_up_inv (len height : Nat) (hhW : height < W64) (hlenW : len < W64)
    (s : Selection) (hs : SelInv len height s) :
    SelInv len height (move_selection_up height s) := by
  obtain ⟨h1, h2, h3⟩ := hs
  simp only [move_selection_up]
  by_cases h0 : s.active = 0
  · rw [if_pos h0]
    exact ⟨h1, h2, h3⟩
  · rw [if_neg h0]
    by_cases heq : s.offset = s.active
    · have hw : wrapSub (s.active - 1) s.offset = W64 - 1 :=
        wrapSub_wrap _ _ (by omega) (by omega)
      rw [hw, if_pos (by omega : W64 - 1 ≥ height)]
      have hw1 : wrapSub s.offset 1 = s.offset - 1 :=
        wrapSub_of_le _ _ (by omega) (by omega)
      rw [hw1]
      exact selInv_mk _ _ _ _ (by omega) (by omega) (by omega)
    · have hlt : s.offset < s.active := by omega
      have hw : wrapSub (s.active - 1) s.offset = s.active - 1 - s.offset :=
        wrapSub_of_le _ _ (by omega) (by omega)
      rw [hw, if_neg (by omega : ¬ s.active - 1 - s.offset ≥ height)]
      exact selInv_mk _ _ _ _ (by omega) (by omega) (by omega)

theorem run_moves_inv (len height : Nat) (hlenW : len < W64) (hhW : height < W64)
    (events : List MoveEvent) (s : Selection) (hs : SelInv len height s) :
    SelInv len height (run_moves len height events s) := by
  induction events generalizing s with
  | nil => exact hs
  | cons e rest ih =>
    cases e with
    | down =>
      have hstep : run_moves len height (MoveEvent.down :: rest) s =
          run_moves len height rest (move_selection_down len height s) := rfl
      rw [hstep]
      exact ih _ (move_down_inv len height hlenW s hs)
    | up =>
      have hstep : run_moves len height (MoveEvent.up :: rest) s =
          run_moves len height rest (move_selection_up height s) := rfl
      rw [hstep]
      exact ih _ (move_up_inv len height hhW hlenW s hs)

theorem move_down_shift (len height : Nat) (hlenW : len < W64)
    (s : Selection) (hs : SelInv len height s) (hmid : s.active < len - 1) :
    (move_selection_down len height s).active = s.active + 1 ∧
    (move_selection_down len height s).offset =
      (if height ≤ s.active + 1 - s.offset then s.offset + 1 else s.offset) := by
  obtain ⟨h1, h2, h3⟩ := hs
  simp only [move_selection_down]
  rw [if_neg (by omega)]
  have hws : wrapSub (s.active + 1) s.offset = s.active + 1 - s.offset :=
    wrapSub_of_le _ _ (by omega) (by omega)
  rw [hws]
  by_cases hcond : height ≤ s.active + 1 - s.offset
  · rw [if_pos hcond, if_pos hcond]
    exact ⟨rfl, rfl⟩
  · rw [if_neg hcond, if_neg hcond]
    exact ⟨rfl, rfl⟩

theorem move_up_shift (len height : Nat) (hhW : height < W64) (hlenW : len < W64)
    (s : Selection) (hs : SelInv len height s) (hpos : 0 < s.active) :
    (move_selection_up height s).active = s.active - 1 ∧
    (move_selection_up height s).offset =
      (if s.active = s.offset then s.offset - 1 else s.offset) := by
  obtain ⟨h1, h2, h3⟩ := hs
  simp only [move_selection_up]
  rw [if_neg (by omega)]
  by_cases heq : s.active = s.offset
  · have hw : wrapSub (s.active - 1) s.offset = W64 - 1 :=
      wrapSub_wrap _ _ (by omega) (by omega)
    rw [hw, if_pos (by omega : W64 - 1 ≥ height), if_pos heq]
    refine ⟨rfl, ?_⟩
    exact wrapSub_of_le _ _ (by omega) (by omega)
  · have hlt : s.offset < s.active := by omega
    have hw : wrapSub (s.active - 1) s.offset = s.active - 1 - s.offset :=
      wrapSub_of_le _ _ (by omega) (by omega)
    rw [hw, if_neg (by omega : ¬ s.active - 1 - s.offset ≥ height), if_neg heq]
    exact ⟨rfl, rfl⟩

/-- C3 (confirmed).  For every non-empty list (of issues or sprints) and
every sequence of move-up/move-down events starting from the initial
selection (0, 0): the active index always stays within [0, length − 1], the
offset never exceeds the active index, the active index stays inside the
visible window; the offset shifts by exactly one in the direction of
movement precisely when the moved index leaves the window (down: the new
index reaches offset + height; up: the index was at the window top), and
the row handed to `set_selected` always equals active − offset.  In
particular with usable height 3 and 5 items, four down moves select index 4
with offset 2 and on-screen row 2. -/
theorem selection_navigation (len height : Nat) (hlen : 0 < len)
    (hlenW : len < W64) (hh : 0 < height) (hhW : height < W64) :
    (∀ events, SelInv len height (run_moves len height events ⟨0, 0⟩)) ∧
    (∀ s, SelInv len height s → selected_row s = s.active - s.offset) ∧
    (∀ s, SelInv len height s → s.active < len - 1 →
      (move_selection_down len height s).active = s.active + 1 ∧
      (move_selection_down len height s).offset =
        (if height ≤ s.active + 1 - s.offset then s.offset + 1 else s.offset)) ∧
    (∀ s, SelInv len height s → 0 < s.active →
      (move_selection_up height s).active = s.active - 1 ∧
      (move_selection_up height s).offset =
        (if s.active = s.offset then s.offset - 1 else s.offset)) ∧
    run_moves 5 3 [MoveEvent.down, MoveEvent.down, MoveEvent.down, MoveEvent.down]
      ⟨0, 0⟩ = ⟨4, 2⟩ ∧
    selected_row ⟨4, 2⟩ = 2 := by
  refine ⟨?_, ?_, ?_, ?_, ?_, ?_⟩
  · intro events
    exact run_moves_inv len height hlenW hhW events ⟨0, 0⟩
      ⟨Nat.le_refl 0, hlen, by simpa using hh⟩
  · intro s hs
    exact wrapSub_of_le _ _ hs.1 (by have := hs.2.1; omega)
  · intro s hs hmid
    exact move_down_shift len height hlenW s hs hmid
  · intro s hs hpos
    exact move_up_shift len height hhW hlenW s hs hpos
  · decide
  · decide

/-- Witness for C3: the 5-item, height-3 scenario. -/
theorem selection_navigation_witness :
    run_moves 5 3 [MoveEvent.down, MoveEvent.down, MoveEvent.down, MoveEvent.down]
      ⟨0, 0⟩ = ⟨4, 2⟩ :=
  (selection_navigation 5 3 (by decide) (by decide) (by decide) (by decide)).2.2.2.2.1

/-! ## Dataset reconciliation (src/app.rs, App::update_state) -/

/-- Sprint entity (src/jira.rs): only the fields the reconciliation reads. -/
structure Sprint where
  id : Nat
  name : String

/-- Issue entity (src/jira.rs): only the fields the reconciliation reads. -/
structure Issue where
  id : String
  name : String

/-- Application dataset (src/app.rs `State`). -/
structure State where
  sprints : List Sprint
  issues : List (List Issue)

/-- Navigation fields of `App` read by `update_state`. -/
structure AppNav where
  sprint_offset : Nat
  active_sprint : Nat
  issue_offset : Nat
  active_issue : Nat

/-- Index reconciliation of `App::update_state` (its first three
statements): read the selected sprint id and issue id from the old state,
adopt the sprint's new position with `position(..).unwrap_or(0)`, then
search the issue id inside `state.issues[self.sprint_offset]` — the sprint
WINDOW OFFSET indexes the per-sprint issue lists, not the freshly adopted
sprint index.  The three `Vec` indexings panic (`none`) when out of
bounds. -/
def update_state_indices (nav : AppNav) (old new_state : State) :
    Option (Nat × Nat) := do
  let curSprint ← old.sprints[nav.active_sprint]?
  let oldIssues ← old.issues[nav.active_sprint]?
  let curIssue ← oldIssues[nav.active_issue]?
  let newActiveSprint :=
    (new_state.sprints.findIdx? (fun s => s.id == curSprint.id)).getD 0
  let offsetIssues ← new_state.issues[nav.sprint_offset]?
  let newActiveIssue :=
    (offsetIssues.findIdx? (fun i => i.id == curIssue.id)).getD 0
  some (newActiveSprint, newActiveIssue)

/-- Reconciliation as the specification words it (the reference the claim
is checked against): the previously selected issue is looked up within the
ADOPTED sprint's new issue sequence. -/
def update_state_indices_spec (nav : AppNav) (old new_state : State) :
    Option (Nat × Nat) := do
  let curSprint ← old.sprints[nav.active_sprint]?
  let oldIssues ← old.issues[nav.active_sprint]?
  let curIssue ← oldIssues[nav.active_issue]?
  let newActiveSprint :=
    (new_state.sprints.findIdx? (fun s => s.id == curSprint.id)).getD 0
  let adoptedIssues ← new_state.issues[newActiveSprint]?
  let newActiveIssue :=
    (adoptedIssues.findIdx? (fun i => i.id == curIssue.id)).getD 0
  some (newActiveSprint, newActiveIssue)

/-- C1 (code bug).  Old state: sprint id 7 selected (index 0, offsets 0),
issue id "X" selected inside it.  New dataset: sprint 7 moved to position 1
and issue "X" sits at position 1 of sprint 7's new issue list.  The code
adopts sprint index 1 but issue index 0, because it searches
`state.issues[self.sprint_offset]` (= the issues of the sprint at window
offset 0, here sprint 9's) instead of the adopted sprint's issue sequence,
in which the claimed lookup (modelled alongside) finds index 1. -/
theorem update_state_wrong_issue_list :
    update_state_indices ⟨0, 0, 0, 0⟩
        ⟨[⟨7, "S7"⟩], [[⟨"X", "I-X"⟩]]⟩
        ⟨[⟨9, "S9"⟩, ⟨7, "S7"⟩], [[⟨"Y", "I-Y"⟩], [⟨"Z", "I-Z"⟩, ⟨"X", "I-X"⟩]]⟩
      = some (1, 0) ∧
    update_state_indices_spec ⟨0, 0, 0, 0⟩
        ⟨[⟨7, "S7"⟩], [[⟨"X", "I-X"⟩]]⟩
        ⟨[⟨9, "S9"⟩, ⟨7, "S7"⟩], [[⟨"Y", "I-Y"⟩], [⟨"Z", "I-Z"⟩, ⟨"X", "I-X"⟩]]⟩
      = some (1, 1) ∧
    ((1, 0) : Nat × Nat) ≠ (1, 1) := by
  refine ⟨rfl, rfl, by decide⟩

end Canoa
